import Mathlib

/-!
Verification of the prezel repository core against its specification.

Rust strings are modelled as lists of characters (`Str`), `HashMap<String,
String>` as association lists without duplicate keys built by `hcollect`
(collecting an iterator into a `HashMap`: a later binding for a key replaces
an earlier one), and fallible calls as `Except`/`Option` values.
-/

namespace Prezel

/-- Model of a Rust `String`: a list of characters. -/
abbrev Str := List Char

/-- First-some choice on options, used to reason about first-match lookups on
concatenated association lists. -/
def ofind (a b : Option Str) : Option Str :=
  match a with
  | some v => some v
  | none => b

/-- Model of Rust `str::split` with a single-character pattern: splits the
character list at every occurrence of `c`; always returns at least one piece,
and the pieces never contain `c`. -/
def splitOnChar (c : Char) : Str → List Str
  | [] => [[]]
  | x :: xs =>
    match splitOnChar c xs with
    | [] => [[]]
    | y :: ys => if x = c then [] :: y :: ys else (x :: y) :: ys

/-- Joining a list of pieces with a separator character; the inverse of
`splitOnChar` on separator-free pieces, and the model of joining lines with
a newline. -/
def joinChar (c : Char) : List Str → Str
  | [] => []
  | [s] => s
  | s :: rest => s ++ c :: joinChar c rest

/-- Model of Rust `str::trim`: drops leading and trailing whitespace
characters (faithful on ASCII input: space, tab, carriage return, newline). -/
def trim (s : Str) : Str :=
  ((s.dropWhile Char.isWhitespace).reverse.dropWhile Char.isWhitespace).reverse

/-! ## `src/env.rs`: the environment-variable bundle

A Rust `HashMap<String, String>` is modelled as an association list with
no duplicate keys.  `hinsert` is `HashMap::insert` (replace on existing
key), `hcollect` is `Iterator::collect::<HashMap<_, _>>` (fold of inserts,
so a later pair for the same key overrides an earlier one), and `hfind` is
`HashMap::get` (first match; association lists produced by `hcollect` carry
each key at most once). -/

/-- Association-list model of `HashMap<String, String>`, the payload of
`EnvVars`. -/
abbrev HMap := List (Str × Str)

/-- Lookup of a key: the value of the first entry carrying it. -/
def hfind (m : HMap) (k : Str) : Option Str :=
  match m with
  | [] => none
  | p :: rest => if p.1 = k then some p.2 else hfind rest k

/-- Model of `HashMap::insert`: replaces the entry of an existing key in
place, otherwise appends the new entry. -/
def hinsert (m : HMap) (k v : Str) : HMap :=
  match m with
  | [] => [(k, v)]
  | p :: rest => if p.1 = k then (k, v) :: rest else p :: hinsert rest k v

/-- Model of collecting an iterator of pairs into a `HashMap`: fold of
inserts starting from the empty map, so the last pair for a key wins. -/
def hcollect (l : List (Str × Str)) : HMap :=
  l.foldl (fun m p => hinsert m p.1 p.2) []

/-- The key set of a map, as the list of keys of its entries. -/
def hkeys (m : HMap) : List Str :=
  m.map (fun p => p.1)

/-- Embedding of `parse_env` (src/env.rs): split the line on every `=` and
accept exactly two pieces. -/
def parse_env (env : Str) : Option (Str × Str) :=
  match splitOnChar '=' env with
  | [name, value] => some (name, value)
  | _ => none

/-- Embedding of `impl From<&str> for EnvVars` (src/env.rs): split the input
on newlines, trim every line, drop blank lines, parse each remaining line
with `parse_env`, and collect the resulting pairs into a `HashMap`. -/
def envFromStr (s : Str) : HMap :=
  hcollect ((((splitOnChar '\n' s).map trim).filter (fun l => l ≠ [])).filterMap parse_env)

/-- Embedding of `impl From<EnvVars> for Vec<String>` (src/env.rs): format
every entry as `key=value`. -/
def envFormat (m : HMap) : List Str :=
  m.map (fun p => p.1 ++ '=' :: p.2)

/-- Embedding of `impl Add for EnvVars` (src/env.rs): chain the entries of
the left operand with those of the right operand and collect into a
`HashMap`, so entries of the right operand override. -/
def envAdd (a b : HMap) : HMap :=
  hcollect (a ++ b)

/-- The (KEY, VALUE) pairs contributed by the valid lines of an input
string, in line order: each line is trimmed and then parsed by `parse_env`;
blank lines contribute nothing because `parse_env` rejects the empty line. -/
def goodPairs (s : Str) : List (Str × Str) :=
  (splitOnChar '\n' s).filterMap (fun l => parse_env (trim l))

/-! ## `src/deployments/workers/github.rs`: the repository watcher

The database (`crate::db::Db`) is not part of the sources; it is modelled
from the spec (section 4.1) as the list of inserted deployment rows, with
`hash_exists(sha)` true exactly when some row — of any project — carries
that sha, and `insert_deployment` appending a row.  The Github source-host
adapter (`crate::github::Github`) is likewise not part of the sources; it
is modelled from the spec (section 4.2) as an oracle of responses whose
errors carry a kind in Transient / NotFound / Auth, and whose
`get_latest_commit` returns no commit (`Ok(None)`) when the branch has
nothing to deploy.  The watcher code in src only distinguishes `Ok` from
`Err`. -/

/-- A commit as returned by the source-host adapter (sha and timestamp). -/
structure Commit where
  sha : Str
  timestamp : Int
deriving DecidableEq, Repr

/-- An open pull request; `head_ref` is `pull.head.ref_field`. -/
structure Pull where
  head_ref : Str
deriving DecidableEq, Repr

/-- The fields of `db::Project` destructured by `GithubWorker::work`. -/
structure Project where
  id : Int
  repo_id : Str
  env : Str
deriving DecidableEq, Repr

/-- Embedding of `db::InsertDeployment`, the row the watcher inserts. -/
structure InsertDeployment where
  env : Str
  sha : Str
  timestamp : Int
  branch : Option Str
  project : Int
deriving DecidableEq, Repr

/-- Modelled from the spec: error kinds of the source-host adapter
(section 4.2); the watcher in src never inspects the kind. -/
inductive GithubErrorKind where
  | Transient
  | NotFound
  | Auth
deriving DecidableEq, Repr

/-- Modelled from the spec: the Github source-host adapter as a static
oracle of responses (the upstream does not change between calls within the
runs considered here). -/
structure Github where
  get_default_branch : Str → Except GithubErrorKind Str
  get_latest_commit : Str → Str → Except GithubErrorKind (Option Commit)
  get_open_pulls : Str → Except GithubErrorKind (List Pull)

/-- Modelled from the spec: the persistence store restricted to what the
watcher touches — the list of deployment rows, in insertion order. -/
abbrev Db := List InsertDeployment

/-- Modelled from the spec (section 4.1): `hash_exists(sha)` is keyed by the
sha alone, across all projects. -/
def hash_exists (db : Db) (sha : Str) : Bool :=
  db.any (fun d => d.sha = sha)

/-- Modelled from the spec (section 4.1): inserting a deployment appends a
row. -/
def insert_deployment (db : Db) (d : InsertDeployment) : Db :=
  db ++ [d]

/-- Embedding of `add_deployment_to_db_if_missing` (github.rs): insert only
when no row with the same sha exists. -/
def add_deployment_to_db_if_missing (db : Db) (d : InsertDeployment) : Db :=
  if hash_exists db d.sha then db else insert_deployment db d

/-- Embedding of `get_latest_commit_for_default_branch` (github.rs): fetch
the default branch name, then the head commit of that branch, propagating
errors. -/
def get_latest_commit_for_default_branch (g : Github) (repo_id : Str) :
    Except GithubErrorKind (Option Commit) := do
  let default_branch ← g.get_default_branch repo_id
  g.get_latest_commit repo_id default_branch

/-- Embedding of the inner `for pull in pulls` loop of `GithubWorker::work`:
for each pull, fetch the head commit of its branch; on `Err` the Rust code
logs and `break`s, which exits only this inner loop, so the function returns
the database as accumulated so far; on `Ok(None)` the pull is skipped; on
`Ok(Some(commit))` a deployment row with `branch = Some(branch)` is inserted
if its sha is missing. -/
def processPulls (g : Github) (p : Project) (db : Db) : List Pull → Db
  | [] => db
  | pull :: rest =>
    match g.get_latest_commit p.repo_id pull.head_ref with
    | .error _ => db
    | .ok none => processPulls g p db rest
    | .ok (some commit) =>
      processPulls g p
        (add_deployment_to_db_if_missing db
          ⟨p.env, commit.sha, commit.timestamp, some pull.head_ref, p.id⟩) rest

/-- Embedding of one cycle of `GithubWorker::work` over the project list
returned by `get_projects`.  For each project: fetch the default-branch head
commit — on `Err` the code logs and `break`s out of the project loop, ending
the cycle; on `Ok(Some(commit))` a row with `branch = None` is inserted if
missing.  Then `get_open_pulls(..).unwrap()` — on `Err` the unwrap panics,
which ends the cycle with no further insertion (modelled as returning the
database accumulated so far).  Then the pulls are processed by
`processPulls`, and the loop continues with the next project. -/
def work (g : Github) (db : Db) : List Project → Db
  | [] => db
  | p :: rest =>
    match get_latest_commit_for_default_branch g p.repo_id with
    | .error _ => db
    | .ok copt =>
      let db1 :=
        match copt with
        | none => db
        | some commit =>
          add_deployment_to_db_if_missing db
            ⟨p.env, commit.sha, commit.timestamp, none, p.id⟩
      match g.get_open_pulls p.repo_id with
      | .error _ => db1
      | .ok pulls => work g (processPulls g p db1 pulls) rest

/-- Running `n` watcher cycles over a static upstream, starting from a given
database. -/
def runCycles (g : Github) (ps : List Project) : Nat → Db → Db
  | 0, db => db
  | n + 1, db => runCycles g ps n (work g db ps)

/-- The deployment candidates one cycle observes for the pulls of one
project, when every source-host call succeeds (`none` when some call
fails). -/
def pullObservations (g : Github) (p : Project) :
    List Pull → Option (List InsertDeployment)
  | [] => some []
  | pull :: rest =>
    match g.get_latest_commit p.repo_id pull.head_ref with
    | .error _ => none
    | .ok none => pullObservations g p rest
    | .ok (some commit) =>
      (pullObservations g p rest).map
        (fun l => ⟨p.env, commit.sha, commit.timestamp, some pull.head_ref, p.id⟩ :: l)

/-- The deployment candidates one cycle observes across the whole project
list, in observation order, when every source-host call succeeds (`none`
when some call fails — the healthy static-upstream regime of the
idempotence property). -/
def cycleObservations (g : Github) : List Project → Option (List InsertDeployment)
  | [] => some []
  | p :: rest =>
    match get_latest_commit_for_default_branch g p.repo_id with
    | .error _ => none
    | .ok copt =>
      match g.get_open_pulls p.repo_id with
      | .error _ => none
      | .ok pulls =>
        match pullObservations g p pulls, cycleObservations g rest with
        | some pos, some ros =>
          some
            ((match copt with
              | none => []
              | some commit => [⟨p.env, commit.sha, commit.timestamp, none, p.id⟩])
              ++ pos ++ ros)
        | _, _ => none

/-! ## `src/proxy.rs`: the routing data plane

The pingora `Session` is modelled by the data the handlers read from it:
the `Host` header (already decoded; `None` also covers an undecodable
value), the cookies parsed from the `Cookie` header (the third-party cookie
crate's `Cookie::split_parse` is modelled as the list of name/value pairs it
yields), the request path and method.  The manager
(`crate::deployments::manager::Manager`) is not part of the sources; it is
modelled from the spec (section 4.5) as its hostname index: a partial map
from hostnames to containers, each container reporting whether it is
public, its `access()` result and its deployment id for logging. -/

/-- A host-local IPv4 socket address (`SocketAddrV4`). -/
structure SockAddr where
  ip : Str
  port : Nat
deriving DecidableEq, Repr

/-- Embedding of `listener::Access`: what `access()` reports. -/
inductive Access where
  | Socket (addr : SockAddr)
  | Loading
deriving DecidableEq, Repr

/-- The management API port (`api/mod.rs`). -/
def API_PORT : Nat := 5045

/-- Response bodies written by the proxy, by provenance: the static
`resources/loading.html` blob, the static port-80 redirect html, or the
empty body. -/
inductive Body where
  | loadingPage
  | movedHtml
  | empty
deriving DecidableEq, Repr

/-- A response produced directly by the proxy (status, headers written,
whether keepalive stays enabled, body). -/
structure HttpResponse where
  status : Nat
  headers : List (Str × Str)
  keepalive : Bool
  body : Body
deriving DecidableEq, Repr

/-- Outcome of `request_filter`: hand the request to the upstream socket
(`Ok(false)` with `ctx.socket` set), answer it directly (`Ok(true)` after
writing a response), or fail with a pingora error (no peer found, or
`access()` failed). -/
inductive FilterResult where
  | upstream (socket : SockAddr)
  | response (r : HttpResponse)
  | failure
deriving DecidableEq, Repr

/-- Embedding of `RequestCtx` (proxy.rs). -/
structure RequestCtx where
  deployment : Option Int
  socket : Option SockAddr
deriving DecidableEq, Repr

/-- The configuration fields `proxy.rs` reads from `conf::Conf`.  `Conf`
itself is not part of the sources; modelled from the spec (section 6):
`hostname` is the configured management hostname (also the name of the auth
cookie), `token` the configured bearer token, `coordinator` the coordinator
base URL. -/
structure Conf where
  hostname : Str
  token : Str
  coordinator : Str
deriving DecidableEq, Repr

/-- Modelled from the spec: `Conf::api_hostname()` — requests whose `Host`
equals the management hostname are routed to the API listener. -/
def Conf.api_hostname (c : Conf) : Str :=
  c.hostname

/-- Modelled from the spec (section 4.5): a container as the data plane sees
it — whether it is public, what `access()` returns (`Except` for the
fallible `anyhow::Result`), and `logging_deployment_id`. -/
structure Container where
  is_public : Bool
  access : Except Unit Access
  logging_deployment_id : Option Int

/-- Modelled from the spec (section 4.5): the manager's hostname index. -/
structure Manager where
  get_container_by_hostname : Str → Option Container

/-- The request data the HTTPS handlers read from the pingora session. -/
structure Session where
  hostHeader : Option Str
  cookies : List (Str × Str)
  path : Str
  method : Str

/-- The peer resolved by `get_listener_inner`: the listener's behaviour plus
the deployment id recorded in the context. -/
structure Peer where
  is_public : Bool
  access : Except Unit Access
  deployment_id : Option Int

/-- Embedding of `ApiListener` (proxy.rs): always public, `access()` is the
loopback API socket, and its `Peer` carries no deployment id. -/
def apiPeer : Peer :=
  ⟨true, .ok (.Socket ⟨"127.0.0.1".data, API_PORT⟩), none⟩

/-- Embedding of `ProxyApp::get_listener_inner`: require a `Host` header; a
host equal to the management hostname resolves to the API listener,
otherwise the manager's hostname index must know the host. -/
def get_listener_inner (conf : Conf) (mgr : Manager) (s : Session) : Option Peer := do
  let host ← s.hostHeader
  if host = conf.api_hostname then
    some apiPeer
  else do
    let c ← mgr.get_container_by_hostname host
    some ⟨c.is_public, c.access, c.logging_deployment_id⟩

/-- Embedding of `ProxyApp::is_authenticated`: some cookie of the request
has the management hostname as its name and the configured token as its
value. -/
def is_authenticated (conf : Conf) (s : Session) : Bool :=
  s.cookies.any (fun c => c.1 = conf.hostname ∧ c.2 = conf.token)

/-- UTF-8 bytes of a character, for percent-encoding. -/
def utf8Bytes (c : Char) : List Nat :=
  let n := c.toNat
  if n < 0x80 then [n]
  else if n < 0x800 then [0xC0 + n / 64, 0x80 + n % 64]
  else if n < 0x10000 then [0xE0 + n / 4096, 0x80 + n / 64 % 64, 0x80 + n % 64]
  else [0xF0 + n / 262144, 0x80 + n / 4096 % 64, 0x80 + n / 64 % 64, 0x80 + n % 64]

/-- Uppercase hexadecimal digit of a value below 16. -/
def hexDigit (n : Nat) : Char :=
  if n < 10 then Char.ofNat ('0'.toNat + n) else Char.ofNat ('A'.toNat + (n - 10))

/-- Model of the url crate's `application/x-www-form-urlencoded`
serialization used by `Url::query_pairs_mut().append_pair`: ASCII
alphanumerics and `*-._` pass through, a space becomes `+`, every other
byte of the UTF-8 encoding becomes `%XX` with uppercase hex. -/
def formUrlEncode (s : Str) : Str :=
  s.flatMap (fun c =>
    if c.isAlphanum && c.toNat < 0x80 then [c]
    else if c = '*' || c = '-' || c = '.' || c = '_' then [c]
    else if c = ' ' then ['+']
    else (utf8Bytes c).flatMap (fun b => ['%', hexDigit (b / 16), hexDigit (b % 16)]))

/-- The redirect URL written on the unauthenticated path of
`request_filter`: `Url::parse("{coordinator}/api/instance/auth")` followed
by `append_pair("callback", "https://{host}{path}")`.  `Url` parsing and
re-serialization is the identity on an already-normalized coordinator URL
without query or fragment and on a normalized `https://host path` callback,
so the result is the concatenation below with the callback value
form-url-encoded. -/
def authRedirectLocation (conf : Conf) (host path : Str) : Str :=
  conf.coordinator ++ "/api/instance/auth?callback=".data
    ++ formUrlEncode ("https://".data ++ host ++ path)

/-- Embedding of `ProxyApp::request_filter` together with the context it
leaves behind.  No peer resolved → pingora error.  Public listener or
authenticated request → ask `access()`: a socket is stored in the context
for `upstream_peer`; `Loading` is answered directly with 200, the
`Prezel-Loading: true` header, keepalive disabled and the static loading
body.  Otherwise → 302 to the coordinator auth endpoint with the request's
own URL as callback, keepalive disabled. -/
def request_filter (conf : Conf) (mgr : Manager) (s : Session) :
    FilterResult × RequestCtx :=
  match get_listener_inner conf mgr s with
  | none => (.failure, ⟨none, none⟩)
  | some peer =>
    if peer.is_public || is_authenticated conf s then
      match peer.access with
      | .error _ => (.failure, ⟨peer.deployment_id, none⟩)
      | .ok (.Socket socket) => (.upstream socket, ⟨peer.deployment_id, some socket⟩)
      | .ok .Loading =>
        (.response ⟨200, [("Prezel-Loading".data, "true".data)], false, .loadingPage⟩,
          ⟨peer.deployment_id, none⟩)
    else
      let host := s.hostHeader.getD []
      (.response
        ⟨302, [("Location".data, authRedirectLocation conf host s.path)], false, .empty⟩,
        ⟨peer.deployment_id, none⟩)

/-- Embedding of `logging::Level` restricted to the two levels the request
logger emits. -/
inductive Level where
  | INFO
  | ERROR
deriving DecidableEq, Repr

/-- Embedding of `logging::RequestLog`. -/
structure RequestLog where
  level : Level
  deployment : Int
  time : Int
  host : Str
  method : Str
  path : Str
  status : Nat
deriving DecidableEq, Repr

/-- Embedding of the free function `logging` (proxy.rs): requires the
`Host` header, a deployment id in the context and a written response; the
record's level is ERROR when the status is a client error (400–499) or a
server error (500–599), INFO otherwise.  Returns the single record handed
to `RequestLogger::log`, or `none` when nothing is logged.  `now()` is
passed in as `time`. -/
def logging (hostHeader : Option Str) (method path : Str)
    (ctx : RequestCtx) (responseStatus : Option Nat) (time : Int) :
    Option RequestLog := do
  let host ← hostHeader
  let deployment ← ctx.deployment
  let status ← responseStatus
  let level :=
    if (400 ≤ status ∧ status ≤ 499) ∨ (500 ≤ status ∧ status ≤ 599) then
      Level.ERROR
    else
      Level.INFO
  some ⟨level, deployment, time, host, method, path, status⟩

/-- The static body of the port-80 redirect response. -/
def movedBody : Str :=
  "<html><body>301 Moved Permanently</body></html>".data

/-- Embedding of `HttpHandler::response`, the port-80 handler: when the
request URI carries a parsable host, answer 301 with the https location and
the static html body; otherwise answer 404 with an empty body.  (Keepalive
is untouched on this path, hence `true`.) -/
def httpHandlerResponse (uriHost : Option Str) (path : Str) : HttpResponse :=
  match uriHost with
  | some host =>
    ⟨301,
      [("Content-Type".data, "text/html".data),
        ("Content-Length".data, (toString movedBody.length).data),
        ("Location".data, "https://".data ++ host ++ path)],
      true, .movedHtml⟩
  | none => ⟨404, [], true, .empty⟩

/-! ## Lemmas about the association-list model of `HashMap` -/

theorem ofind_assoc (a b c : Option Str) :
    ofind (ofind a b) c = ofind a (ofind b c) := by
  cases a <;> simp [ofind]

theorem ofind_none_right (a : Option Str) : ofind a none = a := by
  cases a <;> simp [ofind]

theorem hfind_append (a b : HMap) (k : Str) :
    hfind (a ++ b) k = ofind (hfind a k) (hfind b k) := by
  induction a with
  | nil => simp [hfind, ofind]
  | cons p rest ih =>
    by_cases h : p.1 = k <;> simp [hfind, h, ofind, ih]

theorem hfind_hinsert (m : HMap) (k v k' : Str) :
    hfind (hinsert m k v) k' = if k = k' then some v else hfind m k' := by
  induction m with
  | nil => simp [hinsert, hfind]
  | cons p rest ih =>
    by_cases hp : p.1 = k
    · by_cases hk : k = k' <;> simp [hinsert, hfind, hp, hk]
    · by_cases hk : k = k'
      · subst hk
        simp [hinsert, hfind, hp, ih]
      · by_cases hp' : p.1 = k' <;>
          simp [hinsert, hfind, hp, hp', hk, Ne.symm hk, ih]

theorem hfind_singleton (p : Str × Str) (k : Str) :
    hfind [p] k = if p.1 = k then some p.2 else none := by
  by_cases h : p.1 = k <;> simp [hfind, h]

theorem hfind_foldl (l : List (Str × Str)) (m0 : HMap) (k : Str) :
    hfind (l.foldl (fun m p => hinsert m p.1 p.2) m0) k =
      ofind (hfind l.reverse k) (hfind m0 k) := by
  induction l generalizing m0 with
  | nil => simp [hfind, ofind]
  | cons p rest ih =>
    have hins : hfind (hinsert m0 p.1 p.2) k = ofind (hfind [p] k) (hfind m0 k) := by
      rw [hfind_hinsert, hfind_singleton]
      by_cases h : p.1 = k <;> simp [h, ofind]
    calc hfind (((p :: rest).foldl (fun m q => hinsert m q.1 q.2) m0)) k
        = ofind (hfind rest.reverse k) (hfind (hinsert m0 p.1 p.2) k) := by
          simpa using ih (hinsert m0 p.1 p.2)
      _ = ofind (hfind rest.reverse k) (ofind (hfind [p] k) (hfind m0 k)) := by rw [hins]
      _ = ofind (ofind (hfind rest.reverse k) (hfind [p] k)) (hfind m0 k) := by
          rw [ofind_assoc]
      _ = ofind (hfind (rest.reverse ++ [p]) k) (hfind m0 k) := by rw [hfind_append]
      _ = ofind (hfind (p :: rest).reverse k) (hfind m0 k) := by simp

theorem hfind_hcollect (l : List (Str × Str)) (k : Str) :
    hfind (hcollect l) k = hfind l.reverse k := by
  rw [hcollect, hfind_foldl]
  simp [hfind, ofind_none_right]

theorem hfind_eq_none_iff (m : HMap) (k : Str) :
    hfind m k = none ↔ k ∉ hkeys m := by
  induction m with
  | nil => simp [hfind, hkeys]
  | cons p rest ih =>
    by_cases h : p.1 = k
    · simp [hfind, hkeys, h]
    · simp only [hfind, hkeys, h, if_false, ih, List.map_cons, List.mem_cons]
      tauto

theorem hfind_isSome_iff (m : HMap) (k : Str) :
    (hfind m k).isSome = true ↔ k ∈ hkeys m := by
  rcases h : hfind m k with _ | v
  · rw [hfind_eq_none_iff] at h
    simp [h]
  · have : ¬ hfind m k = none := by simp [h]
    rw [hfind_eq_none_iff] at this
    simp [not_not.mp this]

theorem hkeys_reverse (m : HMap) : hkeys m.reverse = (hkeys m).reverse := by
  simp [hkeys]

theorem hfind_reverse_of_nodup (m : HMap) (hm : (hkeys m).Nodup) (k : Str) :
    hfind m.reverse k = hfind m k := by
  induction m with
  | nil => rfl
  | cons p rest ih =>
    have hcons : hkeys (p :: rest) = p.1 :: hkeys rest := rfl
    rw [hcons, List.nodup_cons] at hm
    have hnotin : p.1 ∉ hkeys rest := hm.1
    have hrest : (hkeys rest).Nodup := hm.2
    rw [List.reverse_cons, hfind_append, ih hrest, hfind_singleton]
    by_cases h : p.1 = k
    · subst h
      have : hfind rest p.1 = none := (hfind_eq_none_iff rest p.1).mpr hnotin
      simp [this, ofind, hfind]
    · simp [h, ofind_none_right, hfind]

/-! ## Lemmas about splitting, joining, trimming and line parsing -/

theorem splitOnChar_ne_nil (c : Char) (s : Str) : splitOnChar c s ≠ [] := by
  cases s with
  | nil => simp [splitOnChar]
  | cons x xs =>
    cases h : splitOnChar c xs with
    | nil => simp [splitOnChar, h]
    | cons y ys =>
      by_cases hx : x = c <;> simp [splitOnChar, h, hx]

theorem joinChar_cons_of_ne_nil (c : Char) (s : Str) (ls : List Str) (h : ls ≠ []) :
    joinChar c (s :: ls) = s ++ c :: joinChar c ls := by
  cases ls with
  | nil => exact absurd rfl h
  | cons y ys => rfl

theorem joinChar_splitOnChar (c : Char) (s : Str) :
    joinChar c (splitOnChar c s) = s := by
  induction s with
  | nil => rfl
  | cons x xs ih =>
    cases h : splitOnChar c xs with
    | nil => exact absurd h (splitOnChar_ne_nil c xs)
    | cons y ys =>
      rw [h] at ih
      by_cases hx : x = c
      · rw [show splitOnChar c (x :: xs) = [] :: y :: ys by simp [splitOnChar, h, hx],
          joinChar_cons_of_ne_nil c [] (y :: ys) (by simp), ih, hx]
        rfl
      · rw [show splitOnChar c (x :: xs) = (x :: y) :: ys by simp [splitOnChar, h, hx]]
        cases ys with
        | nil => simpa [joinChar] using congrArg (fun t => x :: t) ih
        | cons z zs =>
          rw [joinChar_cons_of_ne_nil c (x :: y) (z :: zs) (by simp)]
          rw [joinChar_cons_of_ne_nil c y (z :: zs) (by simp)] at ih
          simpa using congrArg (fun t => x :: t) ih

theorem not_mem_of_mem_splitOnChar (c : Char) (s : Str) :
    ∀ part ∈ splitOnChar c s, c ∉ part := by
  induction s with
  | nil => simp [splitOnChar]
  | cons x xs ih =>
    cases h : splitOnChar c xs with
    | nil => exact absurd h (splitOnChar_ne_nil c xs)
    | cons y ys =>
      rw [h] at ih
      by_cases hx : x = c
      · rw [show splitOnChar c (x :: xs) = [] :: y :: ys by simp [splitOnChar, h, hx]]
        intro part hpart
        rcases List.mem_cons.mp hpart with hp | hp
        · simp [hp]
        · exact ih part hp
      · rw [show splitOnChar c (x :: xs) = (x :: y) :: ys by simp [splitOnChar, h, hx]]
        intro part hpart
        rcases List.mem_cons.mp hpart with hp | hp
        · subst hp
          intro hmem
          rcases List.mem_cons.mp hmem with hm | hm
          · exact hx hm.symm
          · exact ih y (by simp) hm
        · exact ih part (by simp [hp])

theorem splitOnChar_of_not_mem (c : Char) (s : Str) (h : c ∉ s) :
    splitOnChar c s = [s] := by
  induction s with
  | nil => rfl
  | cons x xs ih =>
    have hx : x ≠ c := fun hc => h (by simp [hc])
    have hxs : c ∉ xs := fun hc => h (by simp [hc])
    simp [splitOnChar, ih hxs, hx]

theorem splitOnChar_sep (c : Char) (a b : Str) (ha : c ∉ a) :
    splitOnChar c (a ++ c :: b) = a :: splitOnChar c b := by
  induction a with
  | nil =>
    cases h : splitOnChar c b with
    | nil => exact absurd h (splitOnChar_ne_nil c b)
    | cons y ys => simp [splitOnChar, h]
  | cons x xs ih =>
    have hx : x ≠ c := fun hc => ha (by simp [hc])
    have hxs : c ∉ xs := fun hc => ha (by simp [hc])
    rw [List.cons_append]
    rw [show splitOnChar c (x :: (xs ++ c :: b)) =
        match splitOnChar c (xs ++ c :: b) with
        | [] => [[]]
        | y :: ys => if x = c then [] :: y :: ys else (x :: y) :: ys from rfl]
    rw [ih hxs]
    simp [hx]

theorem splitOnChar_joinChar (c : Char) (ls : List Str) (hls : ls ≠ [])
    (h : ∀ l ∈ ls, c ∉ l) :
    splitOnChar c (joinChar c ls) = ls := by
  induction ls with
  | nil => exact absurd rfl hls
  | cons s rest ih =>
    cases rest with
    | nil => simpa [joinChar] using splitOnChar_of_not_mem c s (h s (by simp))
    | cons y ys =>
      rw [joinChar_cons_of_ne_nil c s (y :: ys) (by simp),
        splitOnChar_sep c s _ (h s (by simp)),
        ih (by simp) (fun l hl => h l (by simp [hl]))]

theorem parse_env_nil : parse_env [] = none := rfl

theorem parse_env_eq_some_iff (l k v : Str) :
    parse_env l = some (k, v) ↔ l = k ++ '=' :: v ∧ '=' ∉ k ∧ '=' ∉ v := by
  constructor
  · intro h
    have hs' : splitOnChar '=' l = [k, v] := by
      rcases hs : splitOnChar '=' l with _ | ⟨y, _ | ⟨z, _ | _⟩⟩ <;>
        simp [parse_env, hs] at h
      simp [hs, h]
    refine ⟨?_, ?_, ?_⟩
    · have := joinChar_splitOnChar '=' l
      rw [hs'] at this
      simpa [joinChar] using this.symm
    · exact not_mem_of_mem_splitOnChar '=' l k (by simp [hs'])
    · exact not_mem_of_mem_splitOnChar '=' l v (by simp [hs'])
  · rintro ⟨hl, hk, hv⟩
    subst hl
    rw [parse_env, splitOnChar_sep '=' k v hk, splitOnChar_of_not_mem '=' v hv]

theorem parse_env_eq_none_of_count (l : Str) (h : l.count '=' ≠ 1) :
    parse_env l = none := by
  rcases hp : parse_env l with _ | ⟨k, v⟩
  · rfl
  · exfalso
    rcases (parse_env_eq_some_iff l k v).mp hp with ⟨hl, hk, hv⟩
    apply h
    subst hl
    have hck : k.count '=' = 0 := List.count_eq_zero.mpr hk
    have hcv : v.count '=' = 0 := List.count_eq_zero.mpr hv
    simp [List.count_append, List.count_cons, hck, hcv]

theorem filterMap_parse_trim (ls : List Str) :
    ((ls.map trim).filter (fun l => l ≠ [])).filterMap parse_env =
      ls.filterMap (fun l => parse_env (trim l)) := by
  induction ls with
  | nil => rfl
  | cons l rest ih =>
    simp only [ne_eq, decide_not] at ih ⊢
    by_cases h : trim l = []
    · simp [h, parse_env_nil, ih]
    · cases hp : parse_env (trim l) <;> simp [h, hp, ih, List.filterMap_cons]

theorem envFromStr_eq_hcollect_goodPairs (s : Str) :
    envFromStr s = hcollect (goodPairs s) := by
  rw [envFromStr, goodPairs, filterMap_parse_trim]

/-! ## Lemmas about the watcher -/

/-- The shas of the rows of a database, in row order. -/
def dbShas (db : Db) : List Str :=
  db.map (fun d => d.sha)

theorem hash_exists_iff (db : Db) (sha : Str) :
    hash_exists db sha = true ↔ sha ∈ dbShas db := by
  simp only [hash_exists, List.any_eq_true, decide_eq_true_eq, dbShas, List.mem_map]

theorem mem_dbShas_add (db : Db) (d : InsertDeployment) (x : Str) :
    x ∈ dbShas (add_deployment_to_db_if_missing db d) ↔
      x ∈ dbShas db ∨ x = d.sha := by
  by_cases he : hash_exists db d.sha
  · have hm : d.sha ∈ dbShas db := (hash_exists_iff db d.sha).mp he
    simp only [add_deployment_to_db_if_missing, he, if_true]
    constructor
    · exact Or.inl
    · rintro (hx | hx)
      · exact hx
      · exact hx ▸ hm
  · simp [add_deployment_to_db_if_missing, he, insert_deployment, dbShas]

theorem nodup_dbShas_add (db : Db) (d : InsertDeployment)
    (hn : (dbShas db).Nodup) :
    (dbShas (add_deployment_to_db_if_missing db d)).Nodup := by
  by_cases he : hash_exists db d.sha
  · simpa [add_deployment_to_db_if_missing, he]
  · have hnm : d.sha ∉ dbShas db := fun hm => he ((hash_exists_iff db d.sha).mpr hm)
    have hshape : dbShas (add_deployment_to_db_if_missing db d) = dbShas db ++ [d.sha] := by
      simp [add_deployment_to_db_if_missing, he, dbShas, insert_deployment]
    rw [hshape]
    exact ((List.perm_append_singleton d.sha (dbShas db)).nodup_iff).mpr
      (List.nodup_cons.mpr ⟨hnm, hn⟩)

theorem mem_dbShas_foldl (cands : List InsertDeployment) (db : Db) (x : Str) :
    x ∈ dbShas (cands.foldl add_deployment_to_db_if_missing db) ↔
      x ∈ dbShas db ∨ x ∈ cands.map (fun d => d.sha) := by
  induction cands generalizing db with
  | nil => simp
  | cons c rest ih =>
    rw [List.foldl_cons, ih, mem_dbShas_add]
    simp [or_assoc]

theorem nodup_dbShas_foldl (cands : List InsertDeployment) (db : Db)
    (hn : (dbShas db).Nodup) :
    (dbShas (cands.foldl add_deployment_to_db_if_missing db)).Nodup := by
  induction cands generalizing db with
  | nil => exact hn
  | cons c rest ih => exact ih _ (nodup_dbShas_add db c hn)

theorem foldl_add_of_mem (cands : List InsertDeployment) (db : Db)
    (h : ∀ d ∈ cands, d.sha ∈ dbShas db) :
    cands.foldl add_deployment_to_db_if_missing db = db := by
  induction cands with
  | nil => rfl
  | cons c rest ih =>
    have hc : hash_exists db c.sha = true := (hash_exists_iff _ _).mpr (h c (by simp))
    rw [List.foldl_cons,
      show add_deployment_to_db_if_missing db c = db by
        simp [add_deployment_to_db_if_missing, hc]]
    exact ih (fun d hd => h d (by simp [hd]))

theorem processPulls_eq_foldl (g : Github) (p : Project) (pulls : List Pull)
    (pos : List InsertDeployment) (h : pullObservations g p pulls = some pos) :
    ∀ db, processPulls g p db pulls = pos.foldl add_deployment_to_db_if_missing db := by
  induction pulls generalizing pos with
  | nil =>
    intro db
    simp only [pullObservations, Option.some.injEq] at h
    subst h
    rfl
  | cons pull rest ih =>
    intro db
    rcases hc : g.get_latest_commit p.repo_id pull.head_ref with e | copt
    · simp [pullObservations, hc] at h
    · cases copt with
      | none =>
        simp only [pullObservations, hc] at h
        simp only [processPulls, hc]
        exact ih pos h db
      | some commit =>
        rcases hrest : pullObservations g p rest with _ | pos'
        · simp [pullObservations, hc, hrest] at h
        · simp only [pullObservations, hc, hrest, Option.map_some', Option.some.injEq] at h
          subst h
          simp only [processPulls, hc]
          rw [ih pos' hrest, List.foldl_cons]

theorem work_eq_foldl (g : Github) (ps : List Project)
    (cands : List InsertDeployment) (h : cycleObservations g ps = some cands) :
    ∀ db, work g db ps = cands.foldl add_deployment_to_db_if_missing db := by
  induction ps generalizing cands with
  | nil =>
    intro db
    simp only [cycleObservations, Option.some.injEq] at h
    subst h
    rfl
  | cons p rest ih =>
    intro db
    rcases hd : get_latest_commit_for_default_branch g p.repo_id with e | copt
    · simp [cycleObservations, hd] at h
    · rcases hp : g.get_open_pulls p.repo_id with e | pulls
      · simp [cycleObservations, hd, hp] at h
      · rcases hpo : pullObservations g p pulls with _ | pos
        · simp [cycleObservations, hd, hp, hpo] at h
        · rcases hro : cycleObservations g rest with _ | ros
          · simp [cycleObservations, hd, hp, hpo, hro] at h
          · simp only [cycleObservations, hd, hp, hpo, hro, Option.some.injEq] at h
            subst h
            simp only [work, hd, hp]
            rw [processPulls_eq_foldl g p pulls pos hpo, ih ros hro]
            cases copt <;> simp [List.foldl_append]

theorem work_work (g : Github) (ps : List Project)
    (cands : List InsertDeployment) (h : cycleObservations g ps = some cands) :
    work g (work g [] ps) ps = work g [] ps := by
  rw [work_eq_foldl g ps cands h, work_eq_foldl g ps cands h]
  apply foldl_add_of_mem
  intro d hd
  rw [mem_dbShas_foldl]
  exact Or.inr (List.mem_map_of_mem _ hd)

theorem runCycles_of_fixed (g : Github) (ps : List Project) (w : Db)
    (hw : work g w ps = w) : ∀ m, runCycles g ps m w = w := by
  intro m
  induction m with
  | zero => rfl
  | succ k ih => simpa [runCycles, hw] using ih

/-! ## Shared facts about parsing a whole bundle string -/

theorem ofind_isSome (x y : Option Str) :
    (ofind x y).isSome = true ↔ x.isSome = true ∨ y.isSome = true := by
  cases x <;> simp [ofind]

/-- Parsing a newline-join of newline-free lines collects the pairs of the
trimmed-and-parsed lines (the blank-line filter is redundant because
`parse_env` rejects the empty line). -/
theorem envFromStr_joinChar (lines : List Str) (hnl : ∀ l ∈ lines, '\n' ∉ l) :
    envFromStr (joinChar '\n' lines) =
      hcollect (lines.filterMap (fun l => parse_env (trim l))) := by
  cases lines with
  | nil => rfl
  | cons l rest =>
    rw [envFromStr, splitOnChar_joinChar '\n' (l :: rest) (by simp) hnl,
      filterMap_parse_trim]

/-- Formatted entries with `=`-free keys and values parse back to
themselves. -/
theorem filterMap_parse_envFormat (m : HMap)
    (h : ∀ p ∈ m, '=' ∉ p.1 ∧ '=' ∉ p.2) :
    (envFormat m).filterMap parse_env = m := by
  induction m with
  | nil => rfl
  | cons p rest ih =>
    have hp := h p (by simp)
    have hparse : parse_env (p.1 ++ '=' :: p.2) = some (p.1, p.2) :=
      (parse_env_eq_some_iff _ _ _).mpr ⟨rfl, hp.1, hp.2⟩
    have hrest := ih (fun q hq => h q (by simp [hq]))
    simp only [envFormat, List.filterMap_map] at hrest
    simp [envFormat, List.filterMap_cons, hparse, List.filterMap_map, hrest]

/-- The value of the last pair carrying a key, in a list of key/value
pairs. -/
def lastVal (l : List (Str × Str)) (k : Str) : Option Str :=
  hfind l.reverse k

/-! ## Claims C3, C4, C5, C10: the environment-variable bundle -/

/-- Claim C3: merging two environment-variable bundles with `+` overrides
on key collision in favour of the right operand — for bundles `a`, `b`
(whose key lists are duplicate-free, as every Rust `HashMap` is) and every
key `k`, `(a + b)[k] = b[k]` when `k` is a key of `b` and `a[k]` otherwise,
and the merged key set is the union of the two key sets. -/
theorem envVars_add_override (a b : HMap) (ha : (hkeys a).Nodup)
    (hb : (hkeys b).Nodup) (k : Str) :
    (k ∈ hkeys b → hfind (envAdd a b) k = hfind b k)
    ∧ (k ∉ hkeys b → hfind (envAdd a b) k = hfind a k)
    ∧ (k ∈ hkeys (envAdd a b) ↔ k ∈ hkeys a ∨ k ∈ hkeys b) := by
  have key : hfind (envAdd a b) k = ofind (hfind b k) (hfind a k) := by
    rw [envAdd, hfind_hcollect, List.reverse_append, hfind_append,
      hfind_reverse_of_nodup b hb k, hfind_reverse_of_nodup a ha k]
  refine ⟨?_, ?_, ?_⟩
  · intro hk
    rw [key]
    rcases hfb : hfind b k with _ | v
    · exact absurd ((hfind_eq_none_iff b k).mp hfb) (not_not.mpr hk)
    · simp [ofind]
  · intro hk
    rw [key, (hfind_eq_none_iff b k).mpr hk]
    rfl
  · rw [← hfind_isSome_iff, key, ofind_isSome, hfind_isSome_iff, hfind_isSome_iff,
      or_comm]

/-- Claim C3 witness: a concrete merge where the right operand wins on the
colliding key and absent keys fall back to the left operand. -/
theorem envVars_add_override_witness :
    hfind (envAdd [("A".data, "1".data)] [("A".data, "2".data), ("B".data, "3".data)])
        "A".data = some "2".data
    ∧ hfind (envAdd [("A".data, "1".data)] [("A".data, "2".data), ("B".data, "3".data)])
        "C".data = hfind [("A".data, "1".data)] "C".data := by
  constructor
  · exact ((envVars_add_override [("A".data, "1".data)]
      [("A".data, "2".data), ("B".data, "3".data)] (by decide) (by decide) "A".data).1
      (by decide)).trans (by decide)
  · exact (envVars_add_override [("A".data, "1".data)]
      [("A".data, "2".data), ("B".data, "3".data)] (by decide) (by decide) "C".data).2.1
      (by decide)

/-- Claim C4 counterexample: the bundle containing the single pair
`("A", "b=c")` formats to the line `A=b=c`, which parsing drops entirely
(three `=`-pieces), so the round trip loses the key `A` and is not the
original bundle up to key reordering. -/
theorem env_roundtrip_cex :
    hfind (envFromStr (joinChar '\n' (envFormat [("A".data, "b=c".data)]))) "A".data = none
    ∧ hfind [("A".data, "b=c".data)] "A".data = some "b=c".data := by
  constructor
  · decide
  · decide

/-- Claim C4 (amended): for every bundle whose keys and values contain no
`=` and no newline and whose formatted lines are unchanged by whitespace
trimming, formatting as newline-separated KEY=VALUE lines and parsing back
yields a bundle with the same value for every key — the original bundle up
to key reordering. -/
theorem env_roundtrip (m : HMap) (hnodup : (hkeys m).Nodup)
    (hwf : ∀ p ∈ m, '=' ∉ p.1 ∧ '=' ∉ p.2 ∧ '\n' ∉ p.1 ∧ '\n' ∉ p.2 ∧
      trim (p.1 ++ '=' :: p.2) = p.1 ++ '=' :: p.2) :
    ∀ k, hfind (envFromStr (joinChar '\n' (envFormat m))) k = hfind m k := by
  intro k
  have hnl : ∀ l ∈ envFormat m, '\n' ∉ l := by
    intro l hl
    rcases List.mem_map.mp hl with ⟨q, hq, hlq⟩
    rcases hwf q hq with ⟨_, _, hk1, hk2, _⟩
    subst hlq
    intro hmem
    rcases List.mem_append.mp hmem with hm | hm
    · exact hk1 hm
    · rcases List.mem_cons.mp hm with hm | hm
      · exact absurd hm (by decide)
      · exact hk2 hm
  have htrim : (envFormat m).map trim = (envFormat m).map id := by
    apply List.map_congr_left
    intro l hl
    rcases List.mem_map.mp hl with ⟨q, hq, hlq⟩
    subst hlq
    exact (hwf q hq).2.2.2.2
  have hstep : envFromStr (joinChar '\n' (envFormat m)) = hcollect m := by
    rw [envFromStr_joinChar (envFormat m) hnl]
    have : (envFormat m).filterMap (fun l => parse_env (trim l)) =
        (envFormat m).filterMap parse_env := by
      apply List.filterMap_congr
      intro l hl
      rcases List.mem_map.mp hl with ⟨q, hq, hlq⟩
      subst hlq
      rw [(hwf q hq).2.2.2.2]
    rw [this, filterMap_parse_envFormat m (fun q hq => ⟨(hwf q hq).1, (hwf q hq).2.1⟩)]
  rw [hstep, hfind_hcollect, hfind_reverse_of_nodup m hnodup k]

/-- Claim C4 witness: a concrete well-formed bundle round-trips. -/
theorem env_roundtrip_witness :
    hfind (envFromStr (joinChar '\n'
        (envFormat [("A".data, "1".data), ("B".data, "two words".data)])))
      "B".data =
      hfind [("A".data, "1".data), ("B".data, "two words".data)] "B".data :=
  env_roundtrip [("A".data, "1".data), ("B".data, "two words".data)]
    (by decide) (by decide) "B".data

/-- Claim C5 counterexample: the line `A=b ` is of the form KEY=VALUE with
KEY `A` and VALUE `b ` and contains exactly one `=`, yet parsing it yields
the pair `("A", "b")` — the line is trimmed first, so the pair
`("A", "b ")` the claim promises is not contributed. -/
theorem env_parse_line_cex :
    envFromStr "A=b ".data = [("A".data, "b".data)]
    ∧ ("A".data, "b ".data) ∉ envFromStr "A=b ".data := by
  constructor
  · decide
  · decide

/-- Claim C5 (amended): parsing treats the input as newline-separated
lines, each trimmed of leading and trailing whitespace before
interpretation: the bundle collects exactly the pairs produced by parsing
the trimmed lines, a line that is blank after trimming or whose trimmed
form does not contain exactly one `=` contributes nothing, and a line whose
trimmed form is KEY=VALUE with `=`-free KEY and VALUE contributes the pair
(KEY, VALUE). -/
theorem env_parse_lines (lines : List Str) (hnl : ∀ l ∈ lines, '\n' ∉ l) :
    envFromStr (joinChar '\n' lines)
      = hcollect (lines.filterMap (fun l => parse_env (trim l)))
    ∧ (∀ l : Str, trim l = [] → parse_env (trim l) = none)
    ∧ (∀ l : Str, (trim l).count '=' ≠ 1 → parse_env (trim l) = none)
    ∧ (∀ l k v : Str, trim l = k ++ '=' :: v → '=' ∉ k → '=' ∉ v →
        parse_env (trim l) = some (k, v)) := by
  refine ⟨envFromStr_joinChar lines hnl, ?_, ?_, ?_⟩
  · intro l h
    rw [h]
    exact parse_env_nil
  · intro l h
    exact parse_env_eq_none_of_count _ h
  · intro l k v h hk hv
    rw [h]
    exact (parse_env_eq_some_iff _ _ _).mpr ⟨rfl, hk, hv⟩

/-- Claim C5 witness: on a concrete input, the KEY=VALUE line contributes
its pair while the blank line and the double-`=` line contribute nothing. -/
theorem env_parse_lines_witness :
    envFromStr (joinChar '\n' [" A=1".data, "  ".data, "x=y=z".data])
      = hcollect ([" A=1".data, "  ".data, "x=y=z".data].filterMap
          (fun l => parse_env (trim l)))
    ∧ parse_env (trim "  ".data) = none
    ∧ parse_env (trim "x=y=z".data) = none
    ∧ parse_env (trim " A=1".data) = some ("A".data, "1".data) := by
  refine ⟨(env_parse_lines [" A=1".data, "  ".data, "x=y=z".data] (by decide)).1,
    (env_parse_lines [" A=1".data, "  ".data, "x=y=z".data] (by decide)).2.1
      "  ".data (by decide),
    (env_parse_lines [" A=1".data, "  ".data, "x=y=z".data] (by decide)).2.2.1
      "x=y=z".data (by decide),
    (env_parse_lines [" A=1".data, "  ".data, "x=y=z".data] (by decide)).2.2.2
      " A=1".data "A".data "1".data (by decide) (by decide) (by decide)⟩

/-- Claim C10: when the same key appears on several valid KEY=VALUE lines,
the parsed bundle maps it to the value of the last such line — the lookup
equals the last binding among the pairs contributed by the lines in input
order. -/
theorem env_parse_last_wins (lines : List Str) (hnl : ∀ l ∈ lines, '\n' ∉ l)
    (k : Str) :
    hfind (envFromStr (joinChar '\n' lines)) k
      = lastVal (lines.filterMap (fun l => parse_env (trim l))) k := by
  rw [envFromStr_joinChar lines hnl, hfind_hcollect]
  rfl

/-- Claim C10 witness: with two lines binding `A`, the parsed bundle holds
the later value. -/
theorem env_parse_last_wins_witness :
    hfind (envFromStr (joinChar '\n' ["A=1".data, "A=2".data])) "A".data
        = lastVal (["A=1".data, "A=2".data].filterMap (fun l => parse_env (trim l)))
          "A".data
    ∧ hfind (envFromStr (joinChar '\n' ["A=1".data, "A=2".data])) "A".data
        = some "2".data := by
  refine ⟨env_parse_last_wins ["A=1".data, "A=2".data] (by decide) "A".data, ?_⟩
  exact (env_parse_last_wins ["A=1".data, "A=2".data] (by decide) "A".data).trans
    (by decide)

/-! ## Claims C1, C2: the repository watcher -/

/-- A static healthy upstream where two distinct projects both have the
same default-branch head sha `x` and no open pull requests. -/
def gC1 : Github where
  get_default_branch := fun _ => .ok "main".data
  get_latest_commit := fun _ br =>
    if br = "main".data then .ok (some ⟨"x".data, 1⟩) else .ok none
  get_open_pulls := fun _ => .ok []

/-- First project watching the shared-sha upstream. -/
def pA : Project := ⟨1, "repo-one".data, []⟩

/-- Second project watching the shared-sha upstream. -/
def pB : Project := ⟨2, "repo-two".data, []⟩

/-- Claim C1 counterexample: on a static healthy upstream where projects 1
and 2 both observe the single sha `x`, one watcher cycle leaves project 2
with zero deployment rows although one distinct sha was observed for it —
`hash_exists` is keyed by the sha alone, so project 1's row suppresses
project 2's insertion and the per-project count claim fails. -/
theorem watcher_per_project_cex :
    (cycleObservations gC1 [pA, pB]).isSome = true
    ∧ ((((cycleObservations gC1 [pA, pB]).getD []).filter
        (fun d => d.project = 2)).map (fun d => d.sha)).toFinset.card = 1
    ∧ ((work gC1 [] [pA, pB]).filter (fun d => d.project = 2)).length = 0 := by
  refine ⟨by decide, by decide, by decide⟩

/-- Claim C1 (amended): for any number `n ≥ 1` of watcher cycles over a
static upstream on which every source-host call succeeds, the store is
exactly the result of the first cycle (later cycles insert nothing), no two
rows share a sha (no row is inserted when the sha is already in the store),
and the total number of deployment rows equals the number of distinct shas
observed across all projects. -/
theorem watcher_insert_idempotent (g : Github) (ps : List Project)
    (cands : List InsertDeployment) (h : cycleObservations g ps = some cands)
    (n : Nat) (hn : 1 ≤ n) :
    runCycles g ps n [] = work g [] ps
    ∧ (dbShas (work g [] ps)).Nodup
    ∧ (work g [] ps).length = (cands.map (fun d => d.sha)).toFinset.card := by
  have hw : ∀ db, work g db ps = cands.foldl add_deployment_to_db_if_missing db :=
    work_eq_foldl g ps cands h
  refine ⟨?_, ?_, ?_⟩
  · rcases n with _ | k
    · exact absurd hn (by simp)
    · have hstep : runCycles g ps (k + 1) [] = runCycles g ps k (work g [] ps) := rfl
      rw [hstep]
      exact runCycles_of_fixed g ps (work g [] ps) (work_work g ps cands h) k
  · rw [hw []]
    exact nodup_dbShas_foldl cands [] (by simp [dbShas])
  · rw [hw []]
    have hnd : (dbShas (cands.foldl add_deployment_to_db_if_missing [])).Nodup :=
      nodup_dbShas_foldl cands [] (by simp [dbShas])
    have hlen : (cands.foldl add_deployment_to_db_if_missing []).length
        = (dbShas (cands.foldl add_deployment_to_db_if_missing [])).length := by
      simp [dbShas]
    rw [hlen, ← List.toFinset_card_of_nodup hnd]
    congr 1
    apply Finset.ext
    intro x
    simp only [List.mem_toFinset]
    rw [mem_dbShas_foldl]
    simp [dbShas]

/-- Claim C1 witness: two cycles over the shared-sha upstream insert one
row in total — the number of distinct shas observed across the two
projects. -/
theorem watcher_insert_idempotent_witness :
    runCycles gC1 [pA, pB] 2 [] = work gC1 [] [pA, pB]
    ∧ (dbShas (work gC1 [] [pA, pB])).Nodup
    ∧ (work gC1 [] [pA, pB]).length =
        (([⟨[], "x".data, 1, none, 1⟩, ⟨[], "x".data, 1, none, 2⟩] :
            List InsertDeployment).map (fun d => d.sha)).toFinset.card :=
  watcher_insert_idempotent gC1 [pA, pB]
    [⟨[], "x".data, 1, none, 1⟩, ⟨[], "x".data, 1, none, 2⟩]
    (by decide) 2 (by decide)

/-- A static upstream where project 1 has default-branch head `a` and one
open pull request on branch `feat` whose head-commit fetch fails with a
Transient error, while project 2 has default-branch head `b` and no open
pull requests. -/
def gC2 : Github where
  get_default_branch := fun _ => .ok "main".data
  get_latest_commit := fun r br =>
    if br = "feat".data then .error .Transient
    else if r = "repo-one".data then .ok (some ⟨"a".data, 1⟩)
    else .ok (some ⟨"b".data, 2⟩)
  get_open_pulls := fun r =>
    if r = "repo-one".data then .ok [⟨"feat".data⟩] else .ok []

/-- First project of the Transient-error cycle. -/
def qA : Project := ⟨1, "repo-one".data, []⟩

/-- Second project of the Transient-error cycle. -/
def qB : Project := ⟨2, "repo-two".data, []⟩

/-- Claim C2 (code bug): fetching the head commit of project 1's open pull
request fails with a Transient error, yet the cycle is not aborted — the
`break` in the pulls loop exits only that inner loop, so the watcher goes
on to project 2 and inserts its deployment row (the second row below),
contradicting the claimed fail-fast abort of the whole cycle. -/
theorem githubWorker_pull_error_cycle_continues :
    gC2.get_latest_commit qA.repo_id "feat".data = .error .Transient
    ∧ work gC2 [] [qA, qB] =
        [⟨[], "a".data, 1, none, 1⟩, ⟨[], "b".data, 2, none, 2⟩] := by
  refine ⟨rfl, by decide⟩

/-! ## Claims C6, C7, C8, C9: the routing data plane -/

/-- Resolving a listener for a request whose host is not the management
hostname and is known to the manager's hostname index. -/
theorem get_listener_inner_container (conf : Conf) (mgr : Manager) (s : Session)
    (host : Str) (c : Container) (hhost : s.hostHeader = some host)
    (hne : host ≠ conf.api_hostname)
    (hc : mgr.get_container_by_hostname host = some c) :
    get_listener_inner conf mgr s =
      some ⟨c.is_public, c.access, c.logging_deployment_id⟩ := by
  simp [get_listener_inner, hhost, hne, hc]

/-- Configuration used in the auth-gate scenarios. -/
def confC6 : Conf := ⟨"mgmt.example".data, "tok".data, "https://c".data⟩

/-- A non-public deployment container behind hostname `h`. -/
def ctrC6 : Container := ⟨false, .ok (.Socket ⟨"10.0.0.1".data, 3000⟩), some 7⟩

/-- Hostname index knowing only `h`. -/
def mgrC6 : Manager := ⟨fun h => if h = "h".data then some ctrC6 else none⟩

/-- A cookie-less request for `https://h/p`. -/
def sC6 : Session := ⟨some "h".data, [], "/p".data, "GET".data⟩

/-- Claim C6 counterexample: for the cookie-less request to the non-public
deployment at host `h` with path `/p` and coordinator `https://c`, the code
responds 302 whose Location carries the callback form-url-encoded
(`https%3A%2F%2Fh%2Fp`), not the literal `callback=https://h/p` the claim
states. -/
theorem proxy_auth_redirect_cex :
    (request_filter confC6 mgrC6 sC6).1 =
      .response ⟨302,
        [("Location".data,
          "https://c/api/instance/auth?callback=https%3A%2F%2Fh%2Fp".data)],
        false, .empty⟩
    ∧ authRedirectLocation confC6 "h".data "/p".data ≠
        "https://c/api/instance/auth?callback=https://h/p".data := by
  refine ⟨by decide, by decide⟩

/-- Claim C6 (amended): a request whose host resolves to a non-public
deployment and that carries no cookie named after the management hostname
with the configured token is not proxied to the deployment's socket and is
answered 302 with Location
`<coordinator>/api/instance/auth?callback=<cb>` where `<cb>` is the
form-url-encoding of `https://<host><path>`; a request carrying such a
cookie is granted access, proceeding to the deployment's `access()`
outcome. -/
theorem proxy_auth_gate (conf : Conf) (mgr : Manager) (s : Session)
    (host : Str) (c : Container)
    (hhost : s.hostHeader = some host) (hne : host ≠ conf.api_hostname)
    (hc : mgr.get_container_by_hostname host = some c)
    (hpub : c.is_public = false) :
    ((∀ ck ∈ s.cookies, ¬(ck.1 = conf.hostname ∧ ck.2 = conf.token)) →
      (request_filter conf mgr s).1 =
        .response ⟨302,
          [("Location".data, authRedirectLocation conf host s.path)],
          false, .empty⟩
      ∧ ∀ sock, (request_filter conf mgr s).1 ≠ .upstream sock)
    ∧ ((conf.hostname, conf.token) ∈ s.cookies →
      (request_filter conf mgr s).1 =
        (match c.access with
          | .ok (.Socket a) => .upstream a
          | .ok .Loading =>
            .response ⟨200, [("Prezel-Loading".data, "true".data)], false, .loadingPage⟩
          | .error _ => .failure)) := by
  have hpeer := get_listener_inner_container conf mgr s host c hhost hne hc
  constructor
  · intro hno
    have hauthf : is_authenticated conf s = false := by
      rw [is_authenticated, List.any_eq_false]
      intro ck hck
      simpa using hno ck hck
    have hres : (request_filter conf mgr s).1 =
        .response ⟨302,
          [("Location".data, authRedirectLocation conf host s.path)],
          false, .empty⟩ := by
      simp [request_filter, hpeer, hpub, hauthf, hhost]
    refine ⟨hres, ?_⟩
    intro sock
    rw [hres]
    simp
  · intro hcookie
    have hautht : is_authenticated conf s = true := by
      rw [is_authenticated, List.any_eq_true]
      exact ⟨(conf.hostname, conf.token), hcookie, by simp⟩
    rcases hacc : c.access with e | acc
    · simp [request_filter, hpeer, hpub, hautht, hacc]
    · cases acc <;> simp [request_filter, hpeer, hpub, hautht, hacc]

/-- The same request as `sC6` but carrying the valid auth cookie. -/
def sC6ck : Session :=
  ⟨some "h".data, [("mgmt.example".data, "tok".data)], "/p".data, "GET".data⟩

/-- Claim C6 witness: the concrete cookie-less request is answered with the
302 redirect, and the same request with the valid cookie is proxied to the
deployment's socket. -/
theorem proxy_auth_gate_witness :
    (request_filter confC6 mgrC6 sC6).1 =
      .response ⟨302,
        [("Location".data, authRedirectLocation confC6 "h".data "/p".data)],
        false, .empty⟩
    ∧ (request_filter confC6 mgrC6 sC6ck).1 = .upstream ⟨"10.0.0.1".data, 3000⟩ := by
  constructor
  · exact ((proxy_auth_gate confC6 mgrC6 sC6 "h".data ctrC6 rfl (by decide) rfl
      rfl).1 (by simp [sC6])).1
  · exact ((proxy_auth_gate confC6 mgrC6 sC6ck "h".data ctrC6 rfl (by decide) rfl
      rfl).2 (by decide)).trans rfl

/-- Claim C7: an authorized request (public deployment or valid cookie)
whose resolved deployment reports `Loading` from `access()` is answered 200
with the `Prezel-Loading: true` header, keepalive disabled and the static
loading body, and is not proxied upstream. -/
theorem proxy_loading_interstitial (conf : Conf) (mgr : Manager) (s : Session)
    (host : Str) (c : Container)
    (hhost : s.hostHeader = some host) (hne : host ≠ conf.api_hostname)
    (hc : mgr.get_container_by_hostname host = some c)
    (hacc : c.access = .ok .Loading)
    (hauth : c.is_public = true ∨ is_authenticated conf s = true) :
    request_filter conf mgr s =
      (.response ⟨200, [("Prezel-Loading".data, "true".data)], false, .loadingPage⟩,
        ⟨c.logging_deployment_id, none⟩)
    ∧ ∀ sock, (request_filter conf mgr s).1 ≠ .upstream sock := by
  have hpeer := get_listener_inner_container conf mgr s host c hhost hne hc
  have hres : request_filter conf mgr s =
      (.response ⟨200, [("Prezel-Loading".data, "true".data)], false, .loadingPage⟩,
        ⟨c.logging_deployment_id, none⟩) := by
    rcases hauth with h | h <;> simp [request_filter, hpeer, hacc, h]
  refine ⟨hres, ?_⟩
  intro sock
  rw [hres]
  simp

/-- A public deployment container still loading. -/
def ctrC7 : Container := ⟨true, .ok .Loading, some 9⟩

/-- Hostname index for the loading scenario. -/
def mgrC7 : Manager := ⟨fun h => if h = "app.example".data then some ctrC7 else none⟩

/-- Configuration for the loading scenario. -/
def confC7 : Conf := ⟨"m.example".data, "t".data, "https://c".data⟩

/-- A request to the loading deployment. -/
def sC7 : Session := ⟨some "app.example".data, [], "/".data, "GET".data⟩

/-- Claim C7 witness: the concrete request to the loading deployment gets
the interstitial response. -/
theorem proxy_loading_interstitial_witness :
    request_filter confC7 mgrC7 sC7 =
      (.response ⟨200, [("Prezel-Loading".data, "true".data)], false, .loadingPage⟩,
        ⟨some 9, none⟩) :=
  (proxy_loading_interstitial confC7 mgrC7 sC7 "app.example".data ctrC7 rfl
    (by decide) rfl rfl (Or.inl rfl)).1

/-- Claim C8: the port-80 handler answers 301 with Location
`https://<host><path>` whenever the request URI carries a parsable host,
and 404 with an empty body otherwise. -/
theorem http_to_https_redirect (uriHost : Option Str) (path : Str) :
    (∀ host, uriHost = some host →
      httpHandlerResponse uriHost path =
        ⟨301,
          [("Content-Type".data, "text/html".data),
            ("Content-Length".data, (toString movedBody.length).data),
            ("Location".data, "https://".data ++ host ++ path)],
          true, .movedHtml⟩)
    ∧ (uriHost = none → httpHandlerResponse uriHost path = ⟨404, [], true, .empty⟩) := by
  constructor
  · intro host h
    subst h
    rfl
  · intro h
    subst h
    rfl

/-- Claim C8 witness: a concrete parsable host is redirected, an absent
host gets 404. -/
theorem http_to_https_redirect_witness :
    httpHandlerResponse (some "example.com".data) "/x".data =
      ⟨301,
        [("Content-Type".data, "text/html".data),
          ("Content-Length".data, "47".data),
          ("Location".data, "https://example.com/x".data)],
        true, .movedHtml⟩
    ∧ httpHandlerResponse none "/x".data = ⟨404, [], true, .empty⟩ := by
  constructor
  · exact ((http_to_https_redirect (some "example.com".data) "/x".data).1
      "example.com".data rfl).trans (by decide)
  · exact (http_to_https_redirect none "/x".data).2 rfl

/-- Configuration for the logging scenario. -/
def confC9 : Conf := ⟨"m.example".data, "t".data, "https://c".data⟩

/-- Empty hostname index: only the management hostname resolves. -/
def mgrC9 : Manager := ⟨fun _ => none⟩

/-- A request to the management hostname. -/
def sC9 : Session := ⟨some "m.example".data, [], "/".data, "GET".data⟩

/-- Claim C9 counterexample: the HTTPS request to the management hostname is
proxied to the API listener and completes with status 200, yet no request
log record is emitted, because the API peer carries no deployment id in the
request context — not every completed HTTPS request emits a record. -/
theorem request_log_cex :
    (request_filter confC9 mgrC9 sC9).1 = .upstream ⟨"127.0.0.1".data, API_PORT⟩
    ∧ (request_filter confC9 mgrC9 sC9).2.deployment = none
    ∧ logging sC9.hostHeader sC9.method sC9.path (request_filter confC9 mgrC9 sC9).2
        (some 200) 0 = none := by
  refine ⟨by decide, by decide, by decide⟩

/-- Claim C9 (amended): when the Host header is present, the request's
context carries a deployment id and a response was written with a valid
status, exactly one request-log record is emitted, containing host, method,
path, status, deployment id and timestamp, at level INFO for a 1xx/2xx/3xx
status and ERROR for 4xx/5xx; with no deployment id in the context (as for
management-API requests) no record is emitted. -/
theorem request_log_emission (h method path : Str) (ctx : RequestCtx)
    (d : Int) (st : Nat) (t : Int) (hd : ctx.deployment = some d)
    (h1 : 100 ≤ st) (h2 : st ≤ 599) :
    (st ≤ 399 →
      logging (some h) method path ctx (some st) t =
        some ⟨.INFO, d, t, h, method, path, st⟩)
    ∧ (400 ≤ st →
      logging (some h) method path ctx (some st) t =
        some ⟨.ERROR, d, t, h, method, path, st⟩)
    ∧ (∀ ho so, logging ho method path ⟨none, ctx.socket⟩ so t = none) := by
  refine ⟨?_, ?_, ?_⟩
  · intro hle
    have hcond : ¬((400 ≤ st ∧ st ≤ 499) ∨ (500 ≤ st ∧ st ≤ 599)) := by omega
    simp [logging, hd, hcond]
  · intro hge
    have hcond : (400 ≤ st ∧ st ≤ 499) ∨ (500 ≤ st ∧ st ≤ 599) := by omega
    simp [logging, hd, hcond]
  · intro ho so
    cases ho <;> simp [logging]

/-- Claim C9 witness: concrete completed requests log one INFO record at
status 200 and one ERROR record at status 503. -/
theorem request_log_emission_witness :
    logging (some "h".data) "GET".data "/".data ⟨some 7, none⟩ (some 200) 5 =
      some ⟨.INFO, 7, 5, "h".data, "GET".data, "/".data, 200⟩
    ∧ logging (some "h".data) "GET".data "/".data ⟨some 7, none⟩ (some 503) 5 =
      some ⟨.ERROR, 7, 5, "h".data, "GET".data, "/".data, 503⟩ := by
  constructor
  · exact (request_log_emission "h".data "GET".data "/".data ⟨some 7, none⟩ 7 200 5
      rfl (by decide) (by decide)).1 (by decide)
  · exact (request_log_emission "h".data "GET".data "/".data ⟨some 7, none⟩ 7 503 5
      rfl (by decide) (by decide)).2.1 (by decide)

end Prezel
